import Mathlib

/-!
Verification development for the report-sdk content-conversion library.

The definitions below are shallow embeddings of the functions in
`src/utils.js`: the styled-string parser (`parseStyledString` and its inner
helper `processSegments`), the tag stripper (`stripTags`), the block-content
normalizer (`parseBlockContent` with `splitByBrTag`), and the markup-tree
serializer (`htmlToDocx` with `nodeToObject` and `parseProperties`).
Strings are handled through their underlying character lists so that all
matching functions are executable and provable by structural reasoning.
-/

set_option maxHeartbeats 1600000

namespace ReportSdk

/-! ## The styled-string parser (`parseStyledString`, utils.js lines 98-186)

The JS regular expression `/<(\w+)>(.*?)<\/\1>/gs` is embedded explicitly:
`\w` is `[A-Za-z0-9_]`; a match at a position needs `<`, a maximal non-empty
run of word characters, `>`, and then the earliest later occurrence of the
matching close tag (the lazy `(.*?)`).  `findMatch` returns the leftmost such
match together with the text before it. -/

def isWordChar (c : Char) : Bool := c.isAlphanum || c = '_'

/-- Matches `<(\w+)>` at the head of the list, returning the tag name and the
remainder after the `>`. -/
def matchOpenTag : List Char → Option (List Char × List Char)
  | [] => none
  | c :: rest =>
    if c = '<' then
      match rest.dropWhile isWordChar with
      | '>' :: rest2 =>
        if rest.takeWhile isWordChar = [] then none
        else some (rest.takeWhile isWordChar, rest2)
      | _ => none
    else none

/-- The literal close tag `</tag>` for a tag name. -/
def closeTagOf (tag : List Char) : List Char := '<' :: '/' :: tag ++ ['>']

/-- Splits a list at the first occurrence of the literal pattern `pat`,
returning the part before it and the part after it. -/
def splitAtFirst (pat : List Char) : List Char → Option (List Char × List Char)
  | [] => none
  | c :: rest =>
    if pat.isPrefixOf (c :: rest) then some ([], (c :: rest).drop pat.length)
    else
      match splitAtFirst pat rest with
      | some (a, b) => some (c :: a, b)
      | none => none

/-- Tries to match the whole regex `<(\w+)>(.*?)</\1>` at the start of `s`,
returning tag, inner text, and the remainder after the close tag. -/
def tryMatchAt (s : List Char) : Option (List Char × List Char × List Char) :=
  match matchOpenTag s with
  | some (tag, afterOpen) =>
    match splitAtFirst (closeTagOf tag) afterOpen with
    | some (inner, after) => some (tag, inner, after)
    | none => none
  | none => none

/-- The leftmost match of `<(\w+)>(.*?)</\1>` in `s`: the text before the
match, the tag, the inner text and the remainder. -/
def findMatch : List Char → Option (List Char × List Char × List Char × List Char)
  | [] => none
  | c :: rest =>
    match tryMatchAt (c :: rest) with
    | some (tag, inner, after) => some ([], tag, inner, after)
    | none =>
      match findMatch rest with
      | some (pre, tag, inner, after) => some (c :: pre, tag, inner, after)
      | none => none

theorem splitAtFirst_eq {pat : List Char} :
    ∀ {l a b : List Char}, splitAtFirst pat l = some (a, b) → l = a ++ pat ++ b := by
  intro l
  induction l with
  | nil => intro a b h; simp [splitAtFirst] at h
  | cons c rest ih =>
    intro a b h
    rw [splitAtFirst] at h
    split at h
    · rename_i hpre
      have hp : pat <+: c :: rest := List.isPrefixOf_iff_prefix.mp hpre
      obtain ⟨t, ht⟩ := hp
      simp only [Option.some.injEq, Prod.mk.injEq] at h
      obtain ⟨rfl, rfl⟩ := h
      rw [← ht, List.drop_left]
      simp
    · split at h
      · rename_i a' b' hrec
        simp only [Option.some.injEq, Prod.mk.injEq] at h
        obtain ⟨rfl, rfl⟩ := h
        have := ih hrec
        simp [this]
      · exact absurd h (by simp)

theorem matchOpenTag_eq : ∀ {s tag rest : List Char}, matchOpenTag s = some (tag, rest) →
    s = '<' :: tag ++ '>' :: rest := by
  intro s tag rest h
  match s with
  | [] => simp [matchOpenTag] at h
  | c :: r =>
    rw [matchOpenTag] at h
    split at h
    · rename_i hc
      subst hc
      split at h
      · rename_i rest2 hdrop
        split at h
        · exact absurd h (by simp)
        · simp only [Option.some.injEq, Prod.mk.injEq] at h
          obtain ⟨rfl, rfl⟩ := h
          have h2 : r.takeWhile isWordChar ++ r.dropWhile isWordChar = r :=
            List.takeWhile_append_dropWhile isWordChar r
          rw [hdrop] at h2
          conv_lhs => rw [← h2]
          simp
      · exact absurd h (by simp)
    · exact absurd h (by simp)

theorem tryMatchAt_eq {s tag inner after : List Char}
    (h : tryMatchAt s = some (tag, inner, after)) :
    s = '<' :: tag ++ '>' :: (inner ++ closeTagOf tag ++ after) := by
  rw [tryMatchAt] at h
  split at h
  · rename_i tag0 afterOpen hopen
    split at h
    · rename_i inner0 after0 hsplit
      simp only [Option.some.injEq, Prod.mk.injEq] at h
      obtain ⟨rfl, rfl, rfl⟩ := h
      have h1 := matchOpenTag_eq hopen
      have h2 := splitAtFirst_eq hsplit
      rw [h1, h2]
    · exact absurd h (by simp)
  · exact absurd h (by simp)

theorem findMatch_decomp :
    ∀ {s pre tag inner after : List Char}, findMatch s = some (pre, tag, inner, after) →
    s = pre ++ '<' :: tag ++ '>' :: (inner ++ closeTagOf tag ++ after) := by
  intro s
  induction s with
  | nil => intro pre tag inner after h; simp [findMatch] at h
  | cons c rest ih =>
    intro pre tag inner after h
    rw [findMatch] at h
    split at h
    · rename_i tag0 inner0 after0 htry
      simp only [Option.some.injEq, Prod.mk.injEq] at h
      obtain ⟨rfl, rfl, rfl, rfl⟩ := h
      have := tryMatchAt_eq htry
      rw [this]
      simp
    · split at h
      · rename_i pre1 tag1 inner1 after1 hrec
        simp only [Option.some.injEq, Prod.mk.injEq] at h
        obtain ⟨rfl, rfl, rfl, rfl⟩ := h
        have := ih hrec
        conv_lhs => rw [this]
        simp
      · exact absurd h (by simp)

theorem findMatch_inner_lt {s pre tag inner after : List Char}
    (h : findMatch s = some (pre, tag, inner, after)) : inner.length < s.length := by
  have := findMatch_decomp h
  subst this
  simp [closeTagOf]
  omega

theorem findMatch_after_lt {s pre tag inner after : List Char}
    (h : findMatch s = some (pre, tag, inner, after)) : after.length < s.length := by
  have := findMatch_decomp h
  subst this
  simp [closeTagOf]
  omega

/-- The style flags carried while parsing; the JS code uses an object with
optional keys `bold`, `italics` and `underline` (the last holds `{}`, so its
presence is what matters and it is modelled as a Bool). -/
structure Styles where
  bold : Bool
  italics : Bool
  underline : Bool
deriving DecidableEq, Repr

def noStyles : Styles := ⟨false, false, false⟩

/-- One styled text run, the JS object `{type: 'text', content, ...styles}`
built by `createTextPart`. -/
structure TextPart where
  content : List Char
  bold : Bool
  italics : Bool
  underline : Bool
deriving DecidableEq, Repr

def createTextPart (content : List Char) (st : Styles) : TextPart :=
  ⟨content, st.bold, st.italics, st.underline⟩

/-- utils.js lines 153-157: the style set extended by the effect of a tag. -/
def updateStyles (tag : List Char) (st : Styles) : Styles :=
  let s1 := if tag = "strong".data ∨ tag = "b".data then { st with bold := true } else st
  let s2 := if tag = "em".data ∨ tag = "i".data then { s1 with italics := true } else s1
  if tag = "u".data then { s2 with underline := true } else s2

/-! `processSegments` (utils.js lines 139-173) and the iteration of its
global-replace loop.  `processSegments` is the function entry (an empty
segment yields a single empty run); `processLoop` is one pass of the
`string.replace(regexp, ...)` loop: text before a match is emitted, the inner
text is recursively processed with extended styles, and the remainder after
the last match is emitted only when non-empty. -/
mutual
def processSegments (s : List Char) (styles : Styles) : List TextPart :=
  if s = [] then [createTextPart [] styles]
  else processLoop styles s
termination_by (s.length, 1)
decreasing_by
· exact Prod.Lex.right _ (by omega)
def processLoop (styles : Styles) (s : List Char) : List TextPart :=
  match _h : findMatch s with
  | none => if s = [] then [] else [createTextPart s styles]
  | some (pre, tag, inner, after) =>
    (if pre = [] then [] else [createTextPart pre styles])
      ++ processSegments inner (updateStyles tag styles)
      ++ processLoop styles after
termination_by (s.length, 0)
decreasing_by
· exact Prod.Lex.left _ _ (findMatch_inner_lt _h)
· exact Prod.Lex.left _ _ (findMatch_after_lt _h)
end

theorem processSegments_eq (s : List Char) (st : Styles) :
    processSegments s st = if s = [] then [createTextPart [] st] else processLoop st s := by
  rw [processSegments.eq_def]

theorem processLoop_eq_none {s : List Char} (st : Styles) (h : findMatch s = none) :
    processLoop st s = if s = [] then [] else [createTextPart s st] := by
  rw [processLoop.eq_def]
  split
  · rfl
  · rename_i pre tag inner after h2
    rw [h] at h2
    cases h2

theorem processLoop_eq_some {s pre tag inner after : List Char} (st : Styles)
    (h : findMatch s = some (pre, tag, inner, after)) :
    processLoop st s =
      (if pre = [] then [] else [createTextPart pre st])
        ++ processSegments inner (updateStyles tag st)
        ++ processLoop st after := by
  rw [processLoop.eq_def]
  split
  · rename_i h2
    rw [h] at h2
    cases h2
  · rename_i pre1 tag1 inner1 after1 h2
    rw [h] at h2
    simp only [Option.some.injEq, Prod.mk.injEq] at h2
    obtain ⟨rfl, rfl, rfl, rfl⟩ := h2
    rfl

theorem processSegments_of_findMatch_none {s : List Char} (st : Styles)
    (h : findMatch s = none) : processSegments s st = [createTextPart s st] := by
  rw [processSegments_eq]
  by_cases hs : s = []
  · subst hs; simp
  · simp only [hs, if_false]
    rw [processLoop_eq_none st h]
    simp [hs]

/-- utils.js line 181: `/<u-org>[\s\S]*?<\/u-org>/g.test(inputString)`.  The
test is an (unanchored) substring search: it succeeds exactly when the string
contains a literal `<u-org>` with a literal `</u-org>` somewhere after it. -/
def hasUOrg (l : List Char) : Bool :=
  match splitAtFirst ("<u-org>".data) l with
  | some (_, rest) => (splitAtFirst ("</u-org>".data) rest).isSome
  | none => false

/-! utils.js line 102: `htmlString.replace(/<[^>]*>/g, '')`.  A match starts
at a `<` that has a later `>`, and extends through the first such `>`;
a `<` with no later `>` cannot start a match and is kept. -/
mutual
def removeTagsL : List Char → List Char
  | [] => []
  | c :: rest =>
    if c = '<' ∧ '>' ∈ rest then skipTagRest rest
    else c :: removeTagsL rest
def skipTagRest : List Char → List Char
  | [] => []
  | c :: rest => if c = '>' then removeTagsL rest else skipTagRest rest
end

/-- Modelled from the spec: utils.js line 105 hands the tag-free string to the
external `DOMParser` collaborator, whose `textContent` decodes HTML entities.
The common named entities are decoded; other text is kept verbatim. -/
def decodeEntities : List Char → List Char
  | [] => []
  | '&' :: 'a' :: 'm' :: 'p' :: ';' :: rest => '&' :: decodeEntities rest
  | '&' :: 'l' :: 't' :: ';' :: rest => '<' :: decodeEntities rest
  | '&' :: 'g' :: 't' :: ';' :: rest => '>' :: decodeEntities rest
  | '&' :: 'q' :: 'u' :: 'o' :: 't' :: ';' :: rest => '"' :: decodeEntities rest
  | '&' :: 'a' :: 'p' :: 'o' :: 's' :: ';' :: rest => '\'' :: decodeEntities rest
  | '&' :: 'n' :: 'b' :: 's' :: 'p' :: ';' :: rest => ' ' :: decodeEntities rest
  | c :: rest => c :: decodeEntities rest

/-- `stripTags` (utils.js lines 98-108): removes every complete `<...>` group
and decodes entities; a falsy (empty) input yields the empty string. -/
def stripTags (htmlString : String) : String :=
  if htmlString = "" then ""
  else ⟨decodeEntities (removeTagsL htmlString.data)⟩

/-- `parseStyledString` (utils.js lines 116-186) on string input: when the
input contains a `<u-org>...</u-org>` pair it is first stripped of all tags
and entity-decoded, then `processSegments` runs with the empty style set.
(The non-string coercion branch at lines 175-178 is modelled separately by
`parseStyledStringJS` below.) -/
def parseStyledString (inputString : String) : List TextPart :=
  processSegments
    (if hasUOrg inputString.data then stripTags inputString else inputString).data noStyles

/-- The text of a segment with the delimiters of all recursively matched tag
pairs removed: the plain text that `processSegments` distributes over its
runs.  Text of unmatched tags stays verbatim, exactly as the parser keeps it. -/
def plainOf (s : List Char) : List Char :=
  match _h : findMatch s with
  | none => s
  | some (pre, _tag, inner, after) => pre ++ plainOf inner ++ plainOf after
termination_by s.length
decreasing_by
· exact findMatch_inner_lt _h
· exact findMatch_after_lt _h

theorem plainOf_eq_none {s : List Char} (h : findMatch s = none) : plainOf s = s := by
  rw [plainOf.eq_def]
  split
  · rfl
  · rename_i pre tag inner after h2
    rw [h] at h2
    cases h2

theorem plainOf_eq_some {s pre tag inner after : List Char}
    (h : findMatch s = some (pre, tag, inner, after)) :
    plainOf s = pre ++ plainOf inner ++ plainOf after := by
  rw [plainOf.eq_def]
  split
  · rename_i h2
    rw [h] at h2
    cases h2
  · rename_i pre1 tag1 inner1 after1 h2
    rw [h] at h2
    simp only [Option.some.injEq, Prod.mk.injEq] at h2
    obtain ⟨rfl, rfl, rfl, rfl⟩ := h2
    rfl

/-- Concatenation of the `content` fields of a run sequence, in order. -/
def concatContents (parts : List TextPart) : List Char :=
  (parts.map TextPart.content).flatten

theorem concatContents_append (a b : List TextPart) :
    concatContents (a ++ b) = concatContents a ++ concatContents b := by
  simp [concatContents]

/-- Distribution of content over the runs: concatenating the contents of
`processSegments s styles` (or of one loop pass) yields `plainOf s`,
independently of the ambient style set. -/
theorem concat_processLoop :
    ∀ n : Nat, ∀ s : List Char, s.length ≤ n → ∀ st : Styles,
      concatContents (processLoop st s) = plainOf s ∧
      concatContents (processSegments s st) = plainOf s := by
  intro n
  induction n with
  | zero =>
    intro s hle st
    have hs : s = [] := by cases s with
      | nil => rfl
      | cons c r => simp at hle
    subst hs
    have hm : findMatch ([] : List Char) = none := rfl
    rw [processLoop_eq_none st hm, processSegments_of_findMatch_none st hm, plainOf_eq_none hm]
    constructor
    · rfl
    · simp [concatContents, createTextPart]
  | succ k ih =>
    intro s hle st
    have hloop : concatContents (processLoop st s) = plainOf s := by
      match hm : findMatch s with
      | none =>
        rw [processLoop_eq_none st hm, plainOf_eq_none hm]
        by_cases hs : s = []
        · simp [hs, concatContents]
        · simp [hs, concatContents, createTextPart]
      | some (pre, tag, inner, after) =>
        rw [processLoop_eq_some st hm, plainOf_eq_some hm]
        have hinner : inner.length ≤ k := by
          have := findMatch_inner_lt hm
          omega
        have hafter : after.length ≤ k := by
          have := findMatch_after_lt hm
          omega
        rw [concatContents_append, concatContents_append]
        rw [(ih inner hinner (updateStyles tag st)).2]
        rw [(ih after hafter st).1]
        by_cases hp : pre = []
        · simp [hp, concatContents]
        · simp [hp, concatContents, createTextPart]
    refine ⟨hloop, ?_⟩
    rw [processSegments_eq]
    by_cases hs : s = []
    · subst hs
      have hm : findMatch ([] : List Char) = none := rfl
      rw [plainOf_eq_none hm]
      simp [concatContents, createTextPart]
    · simp only [hs, if_false]
      exact hloop

theorem concat_processSegments (s : List Char) (st : Styles) :
    concatContents (processSegments s st) = plainOf s :=
  (concat_processLoop s.length s le_rfl st).2

/-! ## The block-content normalizer (`parseBlockContent`, utils.js lines 1-90)

The CMS block is modelled structurally.  Fields that JS code reads through
`?.` or defaults with `|| ...` are `Option`s.  `Block.items` models the array
returned by the external accessor `block.getBlockItems()`; that array and the
objects inside it, like `main.body` and its arrays, are shared with the block,
so mutations performed on them by the normalizer are visible through the
block.  `parseBlockContent` therefore returns a pair: the normalized content
and the state of the block object after the call. -/

/-- An entry of a list (`{ paragraphs }`). -/
structure ListEntry where
  paragraphs : List String
deriving DecidableEq, Repr

/-- A sub-item as returned by `block.getBlockItems()`. -/
structure Item where
  banner : Option String
  images : List String
  paragraphs : List String
  lists : Option (List (List ListEntry))
deriving DecidableEq, Repr

structure Header where
  pretitle : Option String
  title : Option String
  subtitle : Option String
  description : Option String
deriving DecidableEq, Repr

structure Body where
  paragraphs : Option (List String)
  imgs : Option (List String)
  links : Option (List String)
  lists : Option (List (List ListEntry))
deriving DecidableEq, Repr

structure BMain where
  header : Option Header
  body : Option Body
  banner : Option String
deriving DecidableEq, Repr

structure Block where
  main : Option BMain
  items : List Item
deriving DecidableEq, Repr

structure BlockContent where
  pretitle : String
  title : String
  subtitle : String
  description : String
  paragraphs : List String
  images : List String
  links : List String
  lists : List (List ListEntry)
  tables : List String
  items : List Item
deriving DecidableEq, Repr

/-- JS `item.includes(delimiter)`: substring containment. -/
def jsIncludes (s pat : String) : Bool := (splitAtFirst pat.data s.data).isSome

/-- JS `item.split('<br>')` specialised to the literal delimiter `<br>`,
the only delimiter `splitByBrTag` is ever called with (its default). -/
def splitBr : List Char → List (List Char)
  | '<' :: 'b' :: 'r' :: '>' :: rest => [] :: splitBr rest
  | c :: rest =>
    match splitBr rest with
    | acc :: more => (c :: acc) :: more
    | [] => [[c]]
  | [] => [[]]

/-- `splitByBrTag` (utils.js lines 1-13): pushes the split parts of items
containing the delimiter, and other items unchanged. -/
def splitByBrTag (arr : List String) : List String :=
  arr.foldl
    (fun result item =>
      if jsIncludes item "<br>" then result ++ (splitBr item.data).map String.mk
      else result ++ [item])
    []

/-- The filter `(p) => p` on a paragraph array: only the empty string is
falsy. -/
def filterPars (l : List String) : List String := l.filter (fun p => p ≠ "")

/-- utils.js lines 38-43: move an item banner into its images and delete it. -/
def moveBanner (it : Item) : Item :=
  match it.banner with
  | some b => if b = "" then it else ⟨none, it.images ++ [b], it.paragraphs, it.lists⟩
  | none => it

def filterListEntry (e : ListEntry) : ListEntry := ⟨filterPars e.paragraphs⟩

/-- utils.js lines 72-80: filter the paragraphs of the entries of an item's
own lists, when `item.lists?.length` is truthy. -/
def filterItemLists (it : Item) : Item :=
  match it.lists with
  | some ls =>
    if ls.length ≠ 0 then ⟨it.banner, it.images, it.paragraphs, some (ls.map (List.map filterListEntry))⟩
    else it
  | none => it

/-- The truthiness test `if (block.main?.banner)` and the pushed value:
an absent or empty banner pushes nothing. -/
def bannerPush (b : Block) : List String :=
  match b.main.bind BMain.banner with
  | some s => if s = "" then [] else [s]
  | none => []

def blockHeader (b : Block) : Option Header := b.main.bind BMain.header
def blockBody (b : Block) : Option Body := b.main.bind BMain.body
def blockPars (b : Block) : Option (List String) := (blockBody b).bind Body.paragraphs
def blockImgs (b : Block) : Option (List String) := (blockBody b).bind Body.imgs
def blockLinks (b : Block) : Option (List String) := (blockBody b).bind Body.links
def blockLists (b : Block) : Option (List (List ListEntry)) := (blockBody b).bind Body.lists

/-- `parseBlockContent` (utils.js lines 32-90).  The first component is the
returned object; the second is the block as it stands after the call,
reflecting every mutation the JS code performs on state reachable from the
block: the banner move on items, the `images.push(block.main.banner)` into
the aliased `body.imgs` array, the filtered paragraphs assigned onto item
objects and list-entry objects, and the `<br>` split assigned onto item
objects.  Local reassignments (`paragraphs = paragraphs.filter(...)` etc.)
create fresh arrays and do not flow back. -/
def parseBlockContent (block : Block) : BlockContent × Block :=
  let hdr := (block.main.bind BMain.header).getD ⟨none, none, none, none⟩
  let pretitle := hdr.pretitle.getD ""
  let title := hdr.title.getD ""
  let subtitle := hdr.subtitle.getD ""
  let description := hdr.description.getD ""
  let items0 := block.items.map moveBanner
  let paragraphs0 := (blockPars block).getD []
  let imgs0 := (blockImgs block).getD []
  let links0 := (blockLinks block).getD []
  let lists0 := (blockLists block).getD []
  let images1 := imgs0 ++ bannerPush block
  let paragraphs1 := filterPars paragraphs0
  let items1 := items0.map (fun it => ⟨it.banner, it.images, filterPars it.paragraphs, it.lists⟩)
  let lists1 := lists0.map (List.map filterListEntry)
  let items2 := items1.map filterItemLists
  let paragraphs2 := splitByBrTag paragraphs1
  let items3 := items2.map (fun it => ⟨it.banner, it.images, splitByBrTag it.paragraphs, it.lists⟩)
  let content : BlockContent :=
    ⟨pretitle, title, subtitle, description, paragraphs2, images1, links0, lists1, [], items3⟩
  let block1 : Block :=
    ⟨block.main.map (fun m =>
        ⟨m.header,
         m.body.map (fun bd =>
           ⟨bd.paragraphs,
            bd.imgs.map (fun l => l ++ bannerPush block),
            bd.links,
            bd.lists.map (fun ls => ls.map (List.map filterListEntry))⟩),
         m.banner⟩),
     items3⟩
  (content, block1)

/-! ## The markup-tree serializer (`htmlToDocx`, utils.js lines 212-473)

The input HTML string is parsed by the external `DOMParser` collaborator;
the embedding starts from the parsed tree: `htmlToDocx` takes the list of
child nodes of the document body.  The untyped JS values built by
`nodeToObject` (plain objects, strings, and the bare arrays returned for
`contentWrapper` elements) are modelled by `JVal`; a JS object is an
association list whose assignment replaces an existing key in place. -/

inductive DomNode where
  | text : String → DomNode
  | element : String → List (String × String) → List DomNode → DomNode
deriving Repr

inductive JVal where
  | str : String → JVal
  | obj : List (String × JVal) → JVal
  | arr : List JVal → JVal
deriving Repr

/-- JS object property read: the value stored at a key, if any. -/
def objGet (f : List (String × JVal)) (k : String) : Option JVal :=
  (f.find? (fun p => p.1 = k)).map (fun p => p.2)

/-- JS object property assignment: replaces the value at an existing key,
otherwise appends the binding. -/
def objSet : List (String × JVal) → String → JVal → List (String × JVal)
  | [], k, v => [(k, v)]
  | (k1, v1) :: rest, k, v =>
    if k1 = k then (k, v) :: rest else (k1, v1) :: objSet rest k v

/-- The pattern `properties.x = properties.x || {}`: the object stored at a
key, or a fresh empty object.  When the stored value is a truthy (non-empty)
string the JS keeps the primitive and the next member assignment throws a
`TypeError` (this ES module is strict-mode code); `writeFaults` below
identifies exactly those writes and `parsePropertiesE` propagates the thrown
fault, so the total functions built on this helper agree with the code
precisely on fault-free runs.  (An empty string is falsy, so `|| {}` really
does substitute a fresh object for it, as here.) -/
def objGetObjD (f : List (String × JVal)) (k : String) : List (String × JVal) :=
  match objGet f k with
  | some (.obj g) => g
  | _ => []

/-- Writes a value at a nested property path, materialising each intermediate
group with `x = x || {}` exactly as the switch cases of `parseProperties` do. -/
def writeAt (f : List (String × JVal)) : List String → JVal → List (String × JVal)
  | [], _ => f
  | [k], v => objSet f k v
  | k :: k1 :: rest, v => objSet f k (.obj (writeAt (objGetObjD f k) (k1 :: rest) v))

def strStartsWith (s p : String) : Bool := p.data.isPrefixOf s.data

/-- `attr.name.replace('data-', '')` for a name starting with `data-`. -/
def dropData (n : String) : String := ⟨n.data.drop 5⟩

/-- The fixed translation table of `parseProperties` (utils.js lines
227-392): the nested property path each known `data-*` attribute writes, and
the flat fallback key for every other one (the default branch at line 391). -/
def pathOf (n : String) : List String :=
  match n with
  | "data-underline" => ["underline"]
  | "data-positionaltab-alignment" => ["positionalTab", "alignment"]
  | "data-positionaltab-leader" => ["positionalTab", "leader"]
  | "data-positionaltab-relativeto" => ["positionalTab", "relativeTo"]
  | "data-spacing-before" => ["spacing", "before"]
  | "data-spacing-after" => ["spacing", "after"]
  | "data-transformation-width" => ["transformation", "width"]
  | "data-transformation-height" => ["transformation", "height"]
  | "data-bullet-level" => ["bullet", "level"]
  | "data-numbering-reference" => ["numbering", "reference"]
  | "data-numbering-level" => ["numbering", "level"]
  | "data-numbering-instance" => ["numbering", "instance"]
  | "data-alttext-title" => ["altText", "title"]
  | "data-alttext-description" => ["altText", "description"]
  | "data-alttext-name" => ["altText", "name"]
  | "data-width-size" => ["width", "size"]
  | "data-width-type" => ["width", "type"]
  | "data-margins-top" => ["margins", "top"]
  | "data-margins-bottom" => ["margins", "bottom"]
  | "data-margins-left" => ["margins", "left"]
  | "data-margins-right" => ["margins", "right"]
  | "data-borders-top-style" => ["borders", "top", "style"]
  | "data-borders-top-size" => ["borders", "top", "size"]
  | "data-borders-top-color" => ["borders", "top", "color"]
  | "data-borders-bottom-style" => ["borders", "bottom", "style"]
  | "data-borders-bottom-size" => ["borders", "bottom", "size"]
  | "data-borders-bottom-color" => ["borders", "bottom", "color"]
  | "data-borders-left-style" => ["borders", "left", "style"]
  | "data-borders-left-size" => ["borders", "left", "size"]
  | "data-borders-left-color" => ["borders", "left", "color"]
  | "data-borders-right-style" => ["borders", "right", "style"]
  | "data-borders-right-size" => ["borders", "right", "size"]
  | "data-borders-right-color" => ["borders", "right", "color"]
  | "data-image-type" => ["imageType"]
  | "data-floating-horizontalposition-align" => ["floating", "horizontalPosition", "align"]
  | "data-floating-verticalposition-align" => ["floating", "verticalPosition", "align"]
  | "data-floating-verticalposition-relative" => ["floating", "verticalPosition", "relative"]
  | _ => [dropData n]

/-- The value written: `data-underline` stores the empty record `{}`, every
other case stores the attribute value string. -/
def valOf (n v : String) : JVal :=
  if n = "data-underline" then JVal.obj [] else JVal.str v

/-- The guard of the attribute loop (utils.js line 226). -/
def isDataAttr (n : String) : Bool := strStartsWith n "data-" && n ≠ "data-type"

/-- One iteration of the attribute loop of `parseProperties`. -/
def applyAttr (f : List (String × JVal)) (a : String × String) : List (String × JVal) :=
  if isDataAttr a.1 then writeAt f (pathOf a.1) (valOf a.1 a.2) else f

/-- `parseProperties` (utils.js lines 222-397) over the element's attribute
list in document order. -/
def parseProperties (attributes : List (String × String)) : List (String × JVal) :=
  attributes.foldl applyAttr []

/-- Whether writing at a nested path throws in strict mode: the chain
`x = x || {}; x.y = ...` faults as soon as an intermediate position holds a
truthy (non-empty) string, because `|| {}` keeps the primitive and the next
member assignment on it throws a `TypeError`.  An empty string is falsy and
is replaced by a fresh object; a missing or object value never faults.
(Array values never occur in a properties object: the loop only ever stores
strings and group objects.) -/
def writeFaults (f : List (String × JVal)) : List String → Bool
  | [] => false
  | [_] => false
  | k :: k1 :: rest =>
    match objGet f k with
    | some (.str s) => s ≠ ""
    | some (.obj g) => writeFaults g (k1 :: rest)
    | _ => false

/-- One iteration of the attribute loop with the strict-mode fault made
explicit: `none` models the thrown `TypeError`, and a successful iteration
is exactly the total `applyAttr`. -/
def applyAttrE (f : List (String × JVal)) (a : String × String) :
    Option (List (String × JVal)) :=
  if isDataAttr a.1 then
    if writeFaults f (pathOf a.1) then none
    else some (writeAt f (pathOf a.1) (valOf a.1 a.2))
  else some f

/-- `parseProperties` with the strict-mode fault propagated: `none` when
processing the element's attributes throws a `TypeError` part-way, otherwise
the resulting properties object. -/
def parsePropertiesE (attributes : List (String × String)) :
    Option (List (String × JVal)) :=
  attributes.foldlM applyAttrE []

/-- The whitespace set of JS `String.prototype.trim` (ECMA-262 WhiteSpace and
LineTerminator): tab, LF, VT, FF, CR, space, NBSP, Ogham space mark, the
U+2000..U+200A spaces, line and paragraph separators, narrow no-break space,
medium mathematical space, ideographic space, and the BOM. -/
def isJsWS (c : Char) : Bool :=
  c = ' ' || c = '\t' || c = '\n' || c = '\r' || c = '\x0b' || c = '\x0c' ||
  c = '\u00A0' || c = '\u1680' ||
  decide (0x2000 ≤ c.toNat ∧ c.toNat ≤ 0x200A) ||
  c = '\u2028' || c = '\u2029' || c = '\u202F' || c = '\u205F' ||
  c = '\u3000' || c = '\uFEFF'

def jsTrim (s : String) : String :=
  ⟨((s.data.dropWhile isJsWS).reverse.dropWhile isJsWS).reverse⟩

def lowerChar (c : Char) : Char :=
  if 'A' ≤ c ∧ c ≤ 'Z' then Char.ofNat (c.toNat + 32) else c

/-- `tagName.toLowerCase()` (ASCII). -/
def lowerStr (s : String) : String := ⟨s.data.map lowerChar⟩

/-- `node.getAttribute(name)`: the first attribute with that name. -/
def getAttr (attrs : List (String × String)) (name : String) : Option String :=
  (attrs.find? (fun a => a.1 = name)).map (fun a => a.2)

/-- `child.content` as read by the `type === 'text'` branch: a string content
field, or the empty string (JS `join` renders `undefined` as empty). -/
def childContent (v : JVal) : String :=
  match v with
  | .obj f =>
    match objGet f "content" with
    | some (.str s) => s
    | _ => ""
  | _ => ""

/-- `children.map((child) => child.content).join('')`. -/
def joinContents (children : List JVal) : String :=
  children.foldl (fun acc c => acc ++ childContent c) ""

/-- The object literal `{ type, ...properties }`: the `type` binding first,
then the properties spread over it in order. -/
def objSpread (ty : String) (props : List (String × JVal)) : List (String × JVal) :=
  props.foldl (fun acc kv => objSet acc kv.1 kv.2) [("type", JVal.str ty)]

/-- The element type: `node.getAttribute('data-type') || node.tagName.toLowerCase()`
(an absent or empty attribute falls back to the lowercased tag). -/
def nodeType (tag : String) (attrs : List (String × String)) : String :=
  match getAttr attrs "data-type" with
  | some v => if v = "" then lowerStr tag else v
  | none => lowerStr tag

/-! `nodeToObject` (utils.js lines 405-457).  `wrapChildren` is the child
loop of the `contentWrapper` branch (lines 420-426), which pushes each child
object whole, arrays included; `spliceChildren` is the child loop of the
generic element branch (lines 432-443), which spreads arrays. -/
mutual
def nodeToObject : DomNode → Option JVal
  | .text s =>
    if jsTrim s ≠ "" then some (.obj [("type", .str "text"), ("content", .str s)]) else none
  | .element tag attrs children =>
    let ty := nodeType tag attrs
    if ty = "emptyLine" then none
    else if ty = "contentWrapper" then some (.arr (wrapChildren children))
    else
      let properties := parseProperties attrs
      let children1 := spliceChildren children
      let obj0 := objSpread ty properties
      if ty = "text" then some (.obj (objSet obj0 "content" (.str (joinContents children1))))
      else if children1.length > 0 then some (.obj (objSet obj0 "children" (.arr children1)))
      else some (.obj obj0)
def wrapChildren : List DomNode → List JVal
  | [] => []
  | c :: rest =>
    match nodeToObject c with
    | some v => v :: wrapChildren rest
    | none => wrapChildren rest
def spliceChildren : List DomNode → List JVal
  | [] => []
  | c :: rest =>
    match nodeToObject c with
    | some (.arr l) => l ++ spliceChildren rest
    | some v => v :: spliceChildren rest
    | none => spliceChildren rest
end

/-- `htmlToDocx` (utils.js lines 459-472) applied to the parsed body's child
nodes: the top-level loop, spreading bare child arrays into the result. -/
def htmlToDocx (bodyChildren : List DomNode) : List JVal :=
  bodyChildren.foldl
    (fun result child =>
      match nodeToObject child with
      | some (.arr l) => result ++ l
      | some v => result ++ [v]
      | none => result)
    []

/-- Lookup along a nested property path (`properties.spacing.after` is
`getPath (JVal.obj properties) ["spacing", "after"]`). -/
def getPath (v : JVal) : List String → Option JVal
  | [] => some v
  | k :: rest =>
    match v with
    | .obj f =>
      match objGet f k with
      | some u => getPath u rest
      | none => none
    | _ => none

/-- The stored type of an object is not the `contentWrapper` sentinel. -/
def typeNotCW (f : List (String × JVal)) : Bool :=
  match objGet f "type" with
  | some (.str t) => t ≠ "contentWrapper"
  | _ => true

/-! No markup node in an output tree is a `contentWrapper`: the check walks
node positions only — array entries and the `children` field of element
objects — and does not descend into attribute-group values. -/
mutual
def nodeNoCW : JVal → Bool
  | .str _ => true
  | .arr l => listNoCW l
  | .obj f => typeNotCW f && fieldsNoCW f
def listNoCW : List JVal → Bool
  | [] => true
  | v :: rest => nodeNoCW v && listNoCW rest
def fieldsNoCW : List (String × JVal) → Bool
  | [] => true
  | (k, v) :: rest => (if k = "children" then nodeNoCW v else true) && fieldsNoCW rest
end

/-! ## Association-list and property-path lemmas -/

theorem objGet_cons (k1 : String) (v1 : JVal) (rest : List (String × JVal)) (k : String) :
    objGet ((k1, v1) :: rest) k = if k1 = k then some v1 else objGet rest k := by
  by_cases h : k1 = k <;> simp [objGet, List.find?, h]

theorem objGet_objSet_self (f : List (String × JVal)) (k : String) (v : JVal) :
    objGet (objSet f k v) k = some v := by
  induction f with
  | nil => simp [objSet, objGet_cons]
  | cons p rest ih =>
    obtain ⟨k1, v1⟩ := p
    rw [objSet]
    split
    · simp [objGet_cons]
    · rename_i hne
      rw [objGet_cons]
      simp [hne, ih]

theorem objGet_objSet_ne (f : List (String × JVal)) (k k' : String) (v : JVal)
    (h : k' ≠ k) : objGet (objSet f k v) k' = objGet f k' := by
  induction f with
  | nil =>
    show objGet [(k, v)] k' = objGet [] k'
    rw [objGet_cons]
    simp [Ne.symm h, objGet, List.find?]
  | cons p rest ih =>
    obtain ⟨k1, v1⟩ := p
    rw [objSet]
    split
    · rename_i heq
      subst heq
      rw [objGet_cons, objGet_cons]
      simp [Ne.symm h]
    · rw [objGet_cons, objGet_cons, ih]

theorem mem_objSet {kv : String × JVal} {f : List (String × JVal)} {k : String} {v : JVal}
    (h : kv ∈ objSet f k v) : kv = (k, v) ∨ kv ∈ f := by
  induction f with
  | nil => simp [objSet] at h; simp [h]
  | cons p rest ih =>
    obtain ⟨k1, v1⟩ := p
    rw [objSet] at h
    by_cases hk : k1 = k
    · rw [if_pos hk] at h
      rcases List.mem_cons.mp h with h1 | h1
      · exact Or.inl h1
      · exact Or.inr (List.mem_cons_of_mem _ h1)
    · rw [if_neg hk] at h
      rcases List.mem_cons.mp h with h1 | h1
      · exact Or.inr (by simp [h1])
      · rcases ih h1 with h2 | h2
        · exact Or.inl h2
        · exact Or.inr (List.mem_cons_of_mem _ h2)

theorem getPath_obj_cons (f : List (String × JVal)) (k : String) (rest : List String) :
    getPath (JVal.obj f) (k :: rest) =
      (match objGet f k with
       | some u => getPath u rest
       | none => none) := rfl

theorem getPath_writeAt_self (p : List String) :
    ∀ (f : List (String × JVal)) (v : JVal), p ≠ [] →
      getPath (JVal.obj (writeAt f p v)) p = some v := by
  induction p with
  | nil => intro f v h; exact absurd rfl h
  | cons k rest ih =>
    intro f v _
    cases rest with
    | nil => simp [writeAt, getPath, objGet_objSet_self]
    | cons k1 r2 =>
      rw [writeAt, getPath_obj_cons, objGet_objSet_self]
      exact ih _ _ (by simp)

theorem getPath_objGetObjD {f : List (String × JVal)} {k : String} {q : List String}
    (hq : q ≠ []) :
    getPath (JVal.obj (objGetObjD f k)) q =
      (match objGet f k with
       | some u => getPath u q
       | none => none) := by
  cases q with
  | nil => exact absurd rfl hq
  | cons k2 q3 =>
    rcases hg : objGet f k with _ | u
    · have h0 : objGetObjD f k = [] := by unfold objGetObjD; rw [hg]
      rw [h0, getPath_obj_cons]
      simp [objGet, List.find?]
    · cases u with
      | str s =>
        have h0 : objGetObjD f k = [] := by unfold objGetObjD; rw [hg]
        rw [h0, getPath_obj_cons]
        simp [objGet, List.find?, getPath]
      | obj g =>
        have h0 : objGetObjD f k = g := by unfold objGetObjD; rw [hg]
        rw [h0]
      | arr l =>
        have h0 : objGetObjD f k = [] := by unfold objGetObjD; rw [hg]
        rw [h0, getPath_obj_cons]
        simp [objGet, List.find?, getPath]

theorem getPath_writeAt_other (p : List String) :
    ∀ (q : List String) (f : List (String × JVal)) (v : JVal),
      ¬ p <+: q → ¬ q <+: p →
      getPath (JVal.obj (writeAt f p v)) q = getPath (JVal.obj f) q := by
  induction p with
  | nil => intro q f v h1 _; exact absurd (List.nil_prefix) h1
  | cons k rest ih =>
    intro q f v h1 h2
    cases q with
    | nil => exact absurd (List.nil_prefix) h2
    | cons k' q2 =>
      by_cases hk : k = k'
      · subst hk
        cases rest with
        | nil => exact absurd (by exact ⟨q2, rfl⟩) h1
        | cons k1 r2 =>
          have hq2 : q2 ≠ [] := by
            intro hq
            subst hq
            exact h2 ⟨k1 :: r2, rfl⟩
          rw [writeAt, getPath_obj_cons, objGet_objSet_self]
          show getPath (JVal.obj (writeAt (objGetObjD f k) (k1 :: r2) v)) q2
            = getPath (JVal.obj f) (k :: q2)
          have hrec := ih q2 (objGetObjD f k) v
            (fun hp => h1 (List.cons_prefix_cons.mpr ⟨rfl, hp⟩))
            (fun hp => h2 (List.cons_prefix_cons.mpr ⟨rfl, hp⟩))
          rw [hrec, getPath_objGetObjD hq2, getPath_obj_cons]
      · have hw : ∃ x, writeAt f (k :: rest) v = objSet f k x := by
          cases rest with
          | nil => exact ⟨v, rfl⟩
          | cons k1 r2 => exact ⟨_, rfl⟩
        obtain ⟨x, hx⟩ := hw
        rw [hx, getPath_obj_cons, getPath_obj_cons]
        rw [objGet_objSet_ne f k k' x (Ne.symm hk)]

/-! ## Facts about the attribute translation table -/

theorem writeAt_cons_objSet (f : List (String × JVal)) (k : String) (rest : List String)
    (v : JVal) : ∃ x, writeAt f (k :: rest) v = objSet f k x ∧ (rest = [] → x = v) := by
  cases rest with
  | nil => exact ⟨v, rfl, fun _ => rfl⟩
  | cons k1 r2 => exact ⟨_, rfl, fun hh => by cases hh⟩

theorem pathOf_ne_nil (n : String) : pathOf n ≠ [] := by
  unfold pathOf
  split <;> simp [dropData]

theorem strStartsWith_decomp {n : String} (h : strStartsWith n "data-" = true) :
    n.data = "data-".data ++ n.data.drop 5 := by
  have hp : "data-".data <+: n.data := List.isPrefixOf_iff_prefix.mp h
  obtain ⟨t, ht⟩ := hp
  have hd : n.data.drop 5 = t := by
    rw [← ht]
    exact List.drop_left "data-".data t
  rw [hd, ht]

theorem dropData_ne_type {n : String} (h1 : strStartsWith n "data-" = true)
    (h2 : n ≠ "data-type") : dropData n ≠ "type" := by
  intro hc
  apply h2
  have hdata : n.data.drop 5 = "type".data := congrArg String.data hc
  have hsplit := strStartsWith_decomp h1
  rw [hdata] at hsplit
  have hfinal : n.data = "data-type".data := by rw [hsplit]; decide
  calc n = String.mk n.data := rfl
    _ = String.mk ("data-type".data) := by rw [hfinal]
    _ = "data-type" := rfl

theorem isDataAttr_parts {n : String} (h : isDataAttr n = true) :
    strStartsWith n "data-" = true ∧ n ≠ "data-type" := by
  rw [isDataAttr, Bool.and_eq_true] at h
  refine ⟨h.1, ?_⟩
  have := h.2
  simpa using this

theorem pathOf_head_ne_type {n : String} (h1 : isDataAttr n = true) :
    ∀ {k : String} {r : List String}, pathOf n = k :: r → k ≠ "type" := by
  obtain ⟨hsw, hnt⟩ := isDataAttr_parts h1
  intro k r hc
  unfold pathOf at hc
  split at hc <;>
    first
    | (injection hc with hk hr; subst hk; decide)
    | (injection hc with hk hr; subst hk; exact dropData_ne_type hsw hnt)

theorem pathOf_children {n : String} :
    ∀ {r : List String}, pathOf n = "children" :: r → r = [] ∧ n ≠ "data-underline" := by
  intro r hc
  unfold pathOf at hc
  split at hc <;> simp_all

theorem objGet_type_applyAttr (f : List (String × JVal)) (a : String × String)
    (h : objGet f "type" = none) : objGet (applyAttr f a) "type" = none := by
  rw [applyAttr]
  split
  · rename_i hd
    rcases hp : pathOf a.1 with _ | ⟨k, rest⟩
    · exact absurd hp (pathOf_ne_nil a.1)
    · have hk : k ≠ "type" := pathOf_head_ne_type hd hp
      obtain ⟨x, hx, -⟩ := writeAt_cons_objSet f k rest (valOf a.1 a.2)
      rw [hx, objGet_objSet_ne f k "type" x (Ne.symm hk)]
      exact h
  · exact h

theorem objGet_type_parseProperties (attributes : List (String × String)) :
    objGet (parseProperties attributes) "type" = none := by
  rw [parseProperties]
  have hgen : ∀ (f : List (String × JVal)), objGet f "type" = none →
      objGet (attributes.foldl applyAttr f) "type" = none := by
    induction attributes with
    | nil => intro f h; exact h
    | cons a rest ih => intro f h; exact ih _ (objGet_type_applyAttr f a h)
  exact hgen [] rfl

/-- Values stored at the key `children` are strings (the flat fallback is the
only table entry that can write that key). -/
def childrenValsStr (f : List (String × JVal)) : Prop :=
  ∀ kv ∈ f, kv.1 = "children" → ∃ s, kv.2 = JVal.str s

theorem childrenValsStr_applyAttr {f : List (String × JVal)} (a : String × String)
    (h : childrenValsStr f) : childrenValsStr (applyAttr f a) := by
  rw [applyAttr]
  split
  · rcases hp : pathOf a.1 with _ | ⟨k, rest⟩
    · exact absurd hp (pathOf_ne_nil a.1)
    · cases rest with
      | nil =>
        intro kv hkv hk1
        rcases mem_objSet hkv with h2 | h2
        · have hk : k = "children" := by rw [h2] at hk1; exact hk1
          subst hk
          have hnu : a.1 ≠ "data-underline" := (pathOf_children hp).2
          refine ⟨a.2, ?_⟩
          rw [h2]
          simp [valOf, hnu]
        · exact h kv h2 hk1
      | cons k1 r2 =>
        intro kv hkv hk1
        rcases mem_objSet hkv with h2 | h2
        · have hk : k = "children" := by rw [h2] at hk1; exact hk1
          subst hk
          have := (pathOf_children hp).1
          cases this
        · exact h kv h2 hk1
  · exact h

theorem childrenValsStr_parseProperties (attributes : List (String × String)) :
    childrenValsStr (parseProperties attributes) := by
  rw [parseProperties]
  have hgen : ∀ (f : List (String × JVal)), childrenValsStr f →
      childrenValsStr (attributes.foldl applyAttr f) := by
    induction attributes with
    | nil => intro f h; exact h
    | cons a rest ih => intro f h; exact ih _ (childrenValsStr_applyAttr a h)
  exact hgen [] (by intro kv hkv; cases hkv)

theorem objGet_spreadFold (props : List (String × JVal)) :
    ∀ (base : List (String × JVal)) (k : String), objGet props k = none →
      objGet (props.foldl (fun acc kv => objSet acc kv.1 kv.2) base) k = objGet base k := by
  induction props with
  | nil => intro base k _; rfl
  | cons p rest ih =>
    obtain ⟨k1, v1⟩ := p
    intro base k h
    rw [objGet_cons] at h
    by_cases hk : k1 = k
    · simp [hk] at h
    · simp only [List.foldl_cons]
      rw [ih (objSet base k1 v1) k (by simpa [hk] using h)]
      exact objGet_objSet_ne base k1 k v1 (Ne.symm hk)

theorem mem_spreadFold {kv : String × JVal} (props : List (String × JVal)) :
    ∀ base, kv ∈ props.foldl (fun acc p => objSet acc p.1 p.2) base →
      kv ∈ base ∨ kv ∈ props := by
  induction props with
  | nil => intro base h; exact Or.inl h
  | cons p rest ih =>
    intro base h
    simp only [List.foldl_cons] at h
    rcases ih _ h with h2 | h2
    · rcases mem_objSet h2 with h3 | h3
      · exact Or.inr (by simp [h3])
      · exact Or.inl h3
    · exact Or.inr (List.mem_cons_of_mem _ h2)

theorem objGet_objSpread_type (ty : String) (props : List (String × JVal))
    (h : objGet props "type" = none) :
    objGet (objSpread ty props) "type" = some (JVal.str ty) := by
  rw [objSpread, objGet_spreadFold props _ _ h, objGet_cons]
  simp

theorem getPath_foldl_preserve (n : String) :
    ∀ (post : List (String × String)) (f : List (String × JVal)),
      (∀ m w, (m, w) ∈ post → isDataAttr m = true →
        ¬ pathOf m <+: pathOf n ∧ ¬ pathOf n <+: pathOf m) →
      getPath (JVal.obj (post.foldl applyAttr f)) (pathOf n) = getPath (JVal.obj f) (pathOf n) := by
  intro post
  induction post with
  | nil => intro f _; rfl
  | cons a rest ih =>
    intro f hc
    simp only [List.foldl_cons]
    rw [ih _ (fun m w hm => hc m w (List.mem_cons_of_mem _ hm))]
    rw [applyAttr]
    split
    · rename_i hd
      have hcc := hc a.1 a.2 (by simp) hd
      exact getPath_writeAt_other (pathOf a.1) (pathOf n) f _ hcc.1 hcc.2
    · rfl

theorem applyAttr_places (f : List (String × JVal)) (n v : String)
    (hn : isDataAttr n = true) :
    getPath (JVal.obj (applyAttr f (n, v))) (pathOf n) = some (valOf n v) := by
  rw [applyAttr]
  simp only [hn, if_true]
  exact getPath_writeAt_self (pathOf n) f _ (pathOf_ne_nil n)

theorem applyAttrE_some {f b : List (String × JVal)} {a : String × String}
    (h : applyAttrE f a = some b) : b = applyAttr f a := by
  rw [applyAttrE] at h
  rw [applyAttr]
  split at h
  · rename_i hd
    rw [if_pos hd]
    split at h
    · cases h
    · simp only [Option.some.injEq] at h
      exact h.symm
  · rename_i hd
    rw [if_neg hd]
    simp only [Option.some.injEq] at h
    exact h.symm

/-- A fault-free run of the attribute loop computes exactly the total
`parseProperties`. -/
theorem parsePropertiesE_some {attributes : List (String × String)}
    {f : List (String × JVal)} (h : parsePropertiesE attributes = some f) :
    f = parseProperties attributes := by
  have hgen : ∀ (attrs : List (String × String)) (base g : List (String × JVal)),
      List.foldlM applyAttrE base attrs = some g → g = attrs.foldl applyAttr base := by
    intro attrs
    induction attrs with
    | nil =>
      intro base g hh
      simp only [List.foldlM] at hh
      simp only [List.foldl_nil]
      exact (Option.some.injEq _ _ ▸ hh).symm
    | cons a rest ih =>
      intro base g hh
      simp only [List.foldlM] at hh
      cases ha : applyAttrE base a with
      | none => rw [ha] at hh; simp at hh
      | some b =>
        rw [ha] at hh
        have hh2 : List.foldlM applyAttrE b rest = some g := hh
        rw [List.foldl_cons, ← applyAttrE_some ha]
        exact ih b g hh2
  exact hgen attributes [] f h

/-! ## No `contentWrapper` element in serializer output -/

theorem nodeNoCW_str (s : String) : nodeNoCW (.str s) = true := rfl

theorem nodeNoCW_arr (l : List JVal) : nodeNoCW (.arr l) = listNoCW l := rfl

theorem nodeNoCW_obj (f : List (String × JVal)) :
    nodeNoCW (.obj f) = (typeNotCW f && fieldsNoCW f) := rfl

theorem listNoCW_cons (v : JVal) (rest : List JVal) :
    listNoCW (v :: rest) = (nodeNoCW v && listNoCW rest) := rfl

theorem listNoCW_append (a b : List JVal) :
    listNoCW (a ++ b) = (listNoCW a && listNoCW b) := by
  induction a with
  | nil => simp [listNoCW]
  | cons v rest ih => simp [listNoCW_cons, ih, Bool.and_assoc]

theorem typeNotCW_of {f : List (String × JVal)} {t : String}
    (h : objGet f "type" = some (JVal.str t)) (ht : t ≠ "contentWrapper") :
    typeNotCW f = true := by
  unfold typeNotCW
  rw [h]
  simp [ht]

theorem fieldsNoCW_of {f : List (String × JVal)}
    (h : ∀ kv ∈ f, kv.1 = "children" → nodeNoCW kv.2 = true) : fieldsNoCW f = true := by
  induction f with
  | nil => rfl
  | cons p rest ih =>
    obtain ⟨k, v⟩ := p
    rw [fieldsNoCW]
    rw [Bool.and_eq_true]
    refine ⟨?_, ih (fun kv hkv => h kv (List.mem_cons_of_mem _ hkv))⟩
    by_cases hk : k = "children"
    · rw [if_pos hk]
      exact h (k, v) (List.mem_cons_self _ _) hk
    · rw [if_neg hk]

theorem htmlToDocx_eq_splice (bodyChildren : List DomNode) :
    htmlToDocx bodyChildren = spliceChildren bodyChildren := by
  rw [htmlToDocx]
  have hacc : ∀ (doms : List DomNode) (acc : List JVal),
      doms.foldl
        (fun result child =>
          match nodeToObject child with
          | some (.arr l) => result ++ l
          | some v => result ++ [v]
          | none => result)
        acc = acc ++ spliceChildren doms := by
    intro doms
    induction doms with
    | nil => intro acc; simp [spliceChildren]
    | cons c rest ih =>
      intro acc
      simp only [List.foldl_cons]
      rw [spliceChildren]
      cases hnc : nodeToObject c with
      | none =>
        simp only [hnc]
        exact ih acc
      | some v =>
        cases v with
        | str s => simp only [hnc]; rw [ih]; simp
        | obj f => simp only [hnc]; rw [ih]; simp
        | arr l => simp only [hnc]; rw [ih]; simp
  rw [hacc]
  simp

theorem noCW_strong : ∀ bound : Nat,
    (∀ d : DomNode, sizeOf d ≤ bound → ∀ v, nodeToObject d = some v → nodeNoCW v = true) ∧
    (∀ l : List DomNode, sizeOf l ≤ bound →
      listNoCW (wrapChildren l) = true ∧ listNoCW (spliceChildren l) = true) := by
  intro bound
  induction bound with
  | zero =>
    constructor
    · intro d hd
      exfalso
      cases d <;> simp at hd
    · intro l hl
      exfalso
      cases l <;> simp at hl
  | succ k ih =>
    obtain ⟨ihd, ihl⟩ := ih
    constructor
    · intro d hd v hv
      cases d with
      | text s =>
        simp only [nodeToObject] at hv
        split at hv
        · simp only [Option.some.injEq] at hv
          subst hv
          rfl
        · cases hv
      | element tag attrs children =>
        have hch : sizeOf children ≤ k := by
          have hspec : sizeOf (DomNode.element tag attrs children)
              = 1 + sizeOf tag + sizeOf attrs + sizeOf children := by
            simp
          omega
        simp only [nodeToObject] at hv
        by_cases h1 : nodeType tag attrs = "emptyLine"
        · rw [if_pos h1] at hv; cases hv
        · rw [if_neg h1] at hv
          by_cases h2 : nodeType tag attrs = "contentWrapper"
          · rw [if_pos h2] at hv
            simp only [Option.some.injEq] at hv
            subst hv
            rw [nodeNoCW_arr]
            exact (ihl children hch).1
          · rw [if_neg h2] at hv
            have htype : objGet (objSpread (nodeType tag attrs) (parseProperties attrs)) "type"
                = some (JVal.str (nodeType tag attrs)) :=
              objGet_objSpread_type _ _ (objGet_type_parseProperties attrs)
            have hmem : ∀ kv ∈ objSpread (nodeType tag attrs) (parseProperties attrs),
                kv.1 = "children" → nodeNoCW kv.2 = true := by
              intro kv hkv hk1
              rcases mem_spreadFold _ _ hkv with h3 | h3
              · rcases List.mem_singleton.mp h3 with rfl
                simp at hk1
              · obtain ⟨s, hs⟩ := childrenValsStr_parseProperties attrs kv h3 hk1
                rw [hs]
                rfl
            by_cases h3 : nodeType tag attrs = "text"
            · rw [if_pos h3] at hv
              simp only [Option.some.injEq] at hv
              subst hv
              rw [nodeNoCW_obj, Bool.and_eq_true]
              constructor
              · exact typeNotCW_of
                  (by rw [objGet_objSet_ne _ _ _ _ (by decide)]; exact htype) h2
              · refine fieldsNoCW_of ?_
                intro kv hkv hk1
                rcases mem_objSet hkv with h4 | h4
                · rw [h4] at hk1
                  simp at hk1
                · exact hmem kv h4 hk1
            · rw [if_neg h3] at hv
              split at hv
              · simp only [Option.some.injEq] at hv
                subst hv
                rw [nodeNoCW_obj, Bool.and_eq_true]
                constructor
                · exact typeNotCW_of
                    (by rw [objGet_objSet_ne _ _ _ _ (by decide)]; exact htype) h2
                · refine fieldsNoCW_of ?_
                  intro kv hkv hk1
                  rcases mem_objSet hkv with h4 | h4
                  · rw [h4]
                    rw [nodeNoCW_arr]
                    exact (ihl children hch).2
                  · exact hmem kv h4 hk1
              · simp only [Option.some.injEq] at hv
                subst hv
                rw [nodeNoCW_obj, Bool.and_eq_true]
                exact ⟨typeNotCW_of htype h2, fieldsNoCW_of hmem⟩
    · intro l hl
      cases l with
      | nil => exact ⟨rfl, rfl⟩
      | cons c rest =>
        have hc : sizeOf c ≤ k := by
          have hspec : sizeOf (c :: rest) = 1 + sizeOf c + sizeOf rest := by simp
          omega
        have hr : sizeOf rest ≤ k := by
          have hspec : sizeOf (c :: rest) = 1 + sizeOf c + sizeOf rest := by simp
          omega
        constructor
        · rw [wrapChildren]
          cases hnc : nodeToObject c with
          | none =>
            simp only [hnc]
            exact (ihl rest hr).1
          | some v =>
            simp only [hnc, listNoCW_cons, Bool.and_eq_true]
            exact ⟨ihd c hc v hnc, (ihl rest hr).1⟩
        · rw [spliceChildren]
          cases hnc : nodeToObject c with
          | none =>
            simp only [hnc]
            exact (ihl rest hr).2
          | some v =>
            cases v with
            | str s =>
              simp only [hnc, listNoCW_cons, Bool.and_eq_true]
              exact ⟨ihd c hc _ hnc, (ihl rest hr).2⟩
            | obj f =>
              simp only [hnc, listNoCW_cons, Bool.and_eq_true]
              exact ⟨ihd c hc _ hnc, (ihl rest hr).2⟩
            | arr l2 =>
              simp only [hnc, listNoCW_append, Bool.and_eq_true]
              refine ⟨?_, (ihl rest hr).2⟩
              have := ihd c hc _ hnc
              rw [nodeNoCW_arr] at this
              exact this

/-! ## The `u-org` sentinel test as substring containment -/

theorem splitAtFirst_isSome_of (pat : List Char) (hp : pat ≠ []) :
    ∀ (a b l : List Char), l = a ++ pat ++ b → (splitAtFirst pat l).isSome := by
  intro a
  induction a with
  | nil =>
    intro b l hl
    subst hl
    cases pat with
    | nil => exact absurd rfl hp
    | cons p pr =>
      have hl2 : ([] ++ (p :: pr) ++ b) = p :: (pr ++ b) := by simp
      rw [hl2, splitAtFirst]
      have hpre : (p :: pr).isPrefixOf (p :: (pr ++ b)) = true :=
        List.isPrefixOf_iff_prefix.mpr ⟨b, by simp⟩
      rw [hpre]
      simp
  | cons c a2 ih =>
    intro b l hl
    subst hl
    simp only [List.cons_append]
    rw [splitAtFirst]
    by_cases hpre : pat.isPrefixOf (c :: (a2 ++ pat ++ b)) = true
    · rw [hpre]
      simp
    · have hb : pat.isPrefixOf (c :: (a2 ++ pat ++ b)) = false :=
        Bool.not_eq_true _ |>.mp hpre
      rw [hb]
      have hih := ih b (a2 ++ pat ++ b) rfl
      rcases hs : splitAtFirst pat (a2 ++ pat ++ b) with _ | ⟨x, y⟩
      · rw [hs] at hih; cases hih
      · simp [hs]

theorem splitAtFirst_min {pat : List Char} :
    ∀ {l x y : List Char}, splitAtFirst pat l = some (x, y) →
      ∀ a b, l = a ++ pat ++ b → x.length ≤ a.length := by
  intro l
  induction l with
  | nil => intro x y h a b hl; simp [splitAtFirst] at h
  | cons c rest ih =>
    intro x y h a b hl
    rw [splitAtFirst] at h
    split at h
    · simp only [Option.some.injEq, Prod.mk.injEq] at h
      obtain ⟨rfl, rfl⟩ := h
      simp
    · rename_i hpre
      split at h
      · rename_i x1 y1 hrec
        simp only [Option.some.injEq, Prod.mk.injEq] at h
        obtain ⟨rfl, rfl⟩ := h
        cases a with
        | nil =>
          exfalso
          apply hpre
          simp only [List.nil_append] at hl
          exact List.isPrefixOf_iff_prefix.mpr ⟨b, by rw [hl]⟩
        | cons c2 a2 =>
          simp only [List.cons_append, List.cons.injEq] at hl
          obtain ⟨-, h2⟩ := hl
          have := ih hrec a2 b h2
          simp
          omega
      · cases h

theorem hasUOrg_iff (l : List Char) :
    hasUOrg l = true ↔
      ∃ a b c, l = a ++ "<u-org>".data ++ b ++ "</u-org>".data ++ c := by
  constructor
  · intro h
    rw [hasUOrg] at h
    split at h
    · rename_i x rest hsp
      have h1 := splitAtFirst_eq hsp
      rcases hos : splitAtFirst ("</u-org>".data) rest with _ | ⟨b1, c1⟩
      · rw [hos] at h; simp at h
      · have h2 := splitAtFirst_eq hos
        refine ⟨x, b1, c1, ?_⟩
        rw [h1, h2]
        simp
    · cases h
  · rintro ⟨a, b, c, rfl⟩
    rw [hasUOrg]
    have hiso := splitAtFirst_isSome_of ("<u-org>".data) (by decide) a
      (b ++ "</u-org>".data ++ c) (a ++ "<u-org>".data ++ b ++ "</u-org>".data ++ c) (by simp)
    rcases hsp : splitAtFirst ("<u-org>".data) (a ++ "<u-org>".data ++ b ++ "</u-org>".data ++ c)
        with _ | ⟨x, y⟩
    · rw [hsp] at hiso; simp at hiso
    · show (splitAtFirst ("</u-org>".data) y).isSome = true
      have hxa : x.length ≤ a.length :=
        splitAtFirst_min hsp a (b ++ "</u-org>".data ++ c) (by simp)
      have hxy := splitAtFirst_eq hsp
      have h7 : ("<u-org>".data).length = 7 := rfl
      have hy : y = (a ++ "<u-org>".data ++ b ++ "</u-org>".data ++ c).drop (x.length + 7) := by
        rw [hxy]
        rw [show x ++ "<u-org>".data ++ y = (x ++ "<u-org>".data) ++ y by simp]
        rw [show x.length + 7 = (x ++ "<u-org>".data).length by simp [h7]]
        rw [List.drop_left]
      have hcc : (a ++ "<u-org>".data ++ b ++ "</u-org>".data ++ c).drop (a.length + 7 + b.length)
          = "</u-org>".data ++ c := by
        rw [show a ++ "<u-org>".data ++ b ++ "</u-org>".data ++ c
            = (a ++ "<u-org>".data ++ b) ++ ("</u-org>".data ++ c) by simp]
        rw [show a.length + 7 + b.length = (a ++ "<u-org>".data ++ b).length by simp; omega]
        rw [List.drop_left]
      have hyd : y.drop (a.length + b.length - x.length) = "</u-org>".data ++ c := by
        rw [hy, List.drop_drop]
        rw [show x.length + 7 + (a.length + b.length - x.length) = a.length + 7 + b.length by omega]
        exact hcc
      have hysplit : y = y.take (a.length + b.length - x.length) ++ "</u-org>".data ++ c := by
        conv_lhs => rw [← List.take_append_drop (a.length + b.length - x.length) y]
        rw [hyd]
        simp
      have := splitAtFirst_isSome_of ("</u-org>".data) (by decide)
        (y.take (a.length + b.length - x.length)) c y hysplit
      exact this

/-! ## Dynamic input to the styled-string parser -/

/-- A JS runtime value reaching `parseStyledString`: a string, or one of the
non-string values a dynamic caller can pass.  `jsToString` models
`value.toString()`: numbers and booleans render as in JS, while `null` and
`undefined` have no `toString` member and the call throws a `TypeError`. -/
inductive JSValue where
  | str : String → JSValue
  | num : Int → JSValue
  | boolean : Bool → JSValue
  | jsNull : JSValue
  | undef : JSValue
deriving DecidableEq, Repr

def jsToString : JSValue → Option String
  | .str s => some s
  | .num n => some (toString n)
  | .boolean b => some (if b then "true" else "false")
  | .jsNull => none
  | .undef => none

/-- `parseStyledString` on an arbitrary JS value (utils.js lines 175-178):
non-string input logs a warning and is coerced with `inputString.toString()`;
on `null` and `undefined` that member access itself throws. -/
def parseStyledStringJS : JSValue → Except String (List TextPart)
  | .str s => .ok (parseStyledString s)
  | v =>
    match jsToString v with
    | some s => .ok (parseStyledString s)
    | none => .error "TypeError"

/-! ## Claims -/

/-- C1 counterexample: on the input string consisting of a single close tag,
the concatenated run content is the whole input, not the input with its
markup tags removed (the repo's own tag remover `stripTags` deletes the
unmatched `</b>`, while the parser keeps it as content). -/
theorem parseStyledString_concat_strip_cex :
    ¬ (concatContents (parseStyledString "</b>") = (stripTags "</b>").data) := by
  have h1 : (if hasUOrg "</b>".data then stripTags "</b>" else "</b>") = "</b>" := by decide
  unfold parseStyledString
  rw [h1]
  rw [processSegments_of_findMatch_none noStyles (by decide)]
  decide

/-- C1 (amended): for every input string, concatenating the `content` fields
of the runs of `parseStyledString`, in order, equals the input with the
delimiters of all recursively matched tag pairs removed (`plainOf`); text of
unmatched tag-like fragments is preserved verbatim, and an input containing a
`<u-org>...</u-org>` pair is first tag-stripped and entity-decoded before
that equality applies. -/
theorem parseStyledString_concat_plain (s : String) :
    concatContents (parseStyledString s)
      = plainOf (if hasUOrg s.data then (stripTags s).data else s.data) := by
  unfold parseStyledString
  cases hu : hasUOrg s.data
  · exact concat_processSegments s.data noStyles
  · exact concat_processSegments (stripTags s).data noStyles

/-- C2 counterexample: a `contentWrapper` directly inside a `contentWrapper`
is not spliced through; the inner wrapper's reduced children surface as a
single bare-sequence entry (a `JVal.arr`) in the output of `htmlToDocx`. -/
theorem htmlToDocx_nested_wrapper_cex :
    htmlToDocx
      [DomNode.element "div" [("data-type", "contentWrapper")]
        [DomNode.element "div" [("data-type", "contentWrapper")]
          [DomNode.element "p" [] []]]]
      = [JVal.arr [JVal.obj [("type", JVal.str "p")]]] := rfl

/-- C2 (amended): no element of type `contentWrapper` appears anywhere in the
output of `htmlToDocx` — neither among the top-level entries nor in any
`children` sequence, however deep; a wrapper's reduced children are spliced
into the parent one level at a time, but a directly nested `contentWrapper`
yields a bare nested sequence entry rather than being spliced recursively. -/
theorem htmlToDocx_no_contentWrapper (doms : List DomNode) :
    listNoCW (htmlToDocx doms) = true := by
  rw [htmlToDocx_eq_splice]
  exact ((noCW_strong (sizeOf doms)).2 doms le_rfl).2

/-- C3 counterexample: an input that merely contains a `<u-org>...</u-org>`
pair as a proper substring still takes the tag-stripping path, so the `<b>`
tag outside the sentinel is stripped rather than interpreted as styling: the
result is one unstyled run `"xy"` instead of a bold `"x"` run and a `"y"`
run. -/
theorem parseStyledString_uorg_substring_cex :
    parseStyledString "<b>x</b><u-org>y</u-org>"
      = [(⟨"xy".data, false, false, false⟩ : TextPart)] := by
  have h2 : (if hasUOrg "<b>x</b><u-org>y</u-org>".data
      then stripTags "<b>x</b><u-org>y</u-org>" else "<b>x</b><u-org>y</u-org>") = "xy" := by
    decide
  unfold parseStyledString
  rw [h2]
  rw [processSegments_of_findMatch_none noStyles (by decide)]
  rfl

/-- C3 (amended): `parseStyledString` takes the tag-stripping and
entity-decoding path if and only if the input contains a `<u-org>...</u-org>`
pair anywhere as a substring — entire-input wrapping is not required — and
when it does, the whole input (tags outside the sentinel included) is
stripped before segment processing. -/
theorem parseStyledString_uorg_path (s : String) :
    ((∃ a b c, s.data = a ++ "<u-org>".data ++ b ++ "</u-org>".data ++ c)
      ↔ hasUOrg s.data = true) ∧
    (hasUOrg s.data = true →
      parseStyledString s = processSegments (stripTags s).data noStyles) ∧
    (hasUOrg s.data = false →
      parseStyledString s = processSegments s.data noStyles) := by
  refine ⟨(hasUOrg_iff s.data).symm, ?_, ?_⟩
  · intro h
    unfold parseStyledString
    rw [h]
    rfl
  · intro h
    unfold parseStyledString
    rw [h]
    rfl

/-- C3 witness: the stripping path on a concrete input containing the
sentinel pair as a proper substring. -/
theorem parseStyledString_uorg_path_w :
    hasUOrg "x<u-org>y</u-org>".data = true ∧
    parseStyledString "x<u-org>y</u-org>"
      = processSegments (stripTags "x<u-org>y</u-org>").data noStyles :=
  ⟨by decide, (parseStyledString_uorg_path "x<u-org>y</u-org>").2.1 (by decide)⟩

/-- C4 counterexample: the normalizer pushes `block.main.banner` into the
aliased `body.imgs` array, so `block.main.body.imgs` is changed by the call,
contrary to the claim that it is left unmodified. -/
theorem parseBlockContent_imgs_mutation_cex :
    blockImgs (parseBlockContent
      ⟨some ⟨none, some ⟨none, some ["i"], none, none⟩, some "B"⟩, []⟩).2
      = some ["i", "B"] ∧
    blockImgs ⟨some ⟨none, some ⟨none, some ["i"], none, none⟩, some "B"⟩, []⟩
      = some ["i"] := ⟨rfl, rfl⟩

/-- C4 (amended): after `parseBlockContent`, the header fields, the top-level
banner, `body.paragraphs` and `body.links` of the original block are
unchanged; but besides the documented banner deletion on item objects the
call also mutates block-reachable state: the top-level banner is appended to
`body.imgs` (when that array exists), every list entry reachable from
`body.lists` has its paragraphs replaced by the falsy-filtered version, and
the items have their paragraphs filtered and `<br>`-split and their own list
entries filtered, in place. -/
theorem parseBlockContent_frame (b : Block) :
    blockHeader (parseBlockContent b).2 = blockHeader b ∧
    (parseBlockContent b).2.main.bind BMain.banner = b.main.bind BMain.banner ∧
    blockPars (parseBlockContent b).2 = blockPars b ∧
    blockLinks (parseBlockContent b).2 = blockLinks b ∧
    blockImgs (parseBlockContent b).2 = (blockImgs b).map (fun l => l ++ bannerPush b) ∧
    blockLists (parseBlockContent b).2
      = (blockLists b).map (fun ls => ls.map (List.map filterListEntry)) ∧
    (parseBlockContent b).2.items
      = (((b.items.map moveBanner).map
            (fun it => ⟨it.banner, it.images, filterPars it.paragraphs, it.lists⟩)).map
          filterItemLists).map
          (fun it => ⟨it.banner, it.images, splitByBrTag it.paragraphs, it.lists⟩) := by
  obtain ⟨mainOpt, items⟩ := b
  cases mainOpt with
  | none => exact ⟨rfl, rfl, rfl, rfl, rfl, rfl, rfl⟩
  | some m =>
    obtain ⟨hdr, bodyOpt, ban⟩ := m
    cases bodyOpt with
    | none => exact ⟨rfl, rfl, rfl, rfl, rfl, rfl, rfl⟩
    | some bd => exact ⟨rfl, rfl, rfl, rfl, rfl, rfl, rfl⟩

/-- C5 counterexample: a DOM text node with surrounding whitespace survives
(its trim is non-empty) but its content is emitted verbatim, untrimmed. -/
theorem nodeToObject_untrimmed_text_cex :
    htmlToDocx [DomNode.text " a "]
      = [JVal.obj [("type", JVal.str "text"), ("content", JVal.str " a ")]] ∧
    jsTrim " a " = "a" := ⟨rfl, by decide⟩

/-- C5 (amended): a DOM text node whose trimmed content is empty produces no
output node at all; one whose trimmed content is non-empty produces a text
object carrying the original, untrimmed content. -/
theorem htmlToDocx_text_nodes (s : String) (rest : List DomNode) :
    (jsTrim s = "" → htmlToDocx (DomNode.text s :: rest) = htmlToDocx rest) ∧
    (jsTrim s ≠ "" → htmlToDocx (DomNode.text s :: rest)
      = JVal.obj [("type", JVal.str "text"), ("content", JVal.str s)] :: htmlToDocx rest) := by
  simp only [htmlToDocx_eq_splice]
  constructor
  · intro h
    rw [spliceChildren]
    have hno : nodeToObject (DomNode.text s) = none := by
      simp [nodeToObject, h]
    rw [hno]
  · intro h
    rw [spliceChildren]
    have hsome : nodeToObject (DomNode.text s)
        = some (JVal.obj [("type", JVal.str "text"), ("content", JVal.str s)]) := by
      simp [nodeToObject, h]
    rw [hsome]

/-- C5 witness: whitespace-only text nodes are dropped — also one consisting
of a no-break space, which JS `trim` removes — and a non-empty one keeps its
original spacing. -/
theorem htmlToDocx_text_nodes_w :
    htmlToDocx [DomNode.text "  "] = [] ∧
    htmlToDocx [DomNode.text "\u00A0"] = [] ∧
    htmlToDocx [DomNode.text " b "]
      = [JVal.obj [("type", JVal.str "text"), ("content", JVal.str " b ")]] :=
  ⟨((htmlToDocx_text_nodes "  " []).1 (by decide)).trans rfl,
   ((htmlToDocx_text_nodes "\u00A0" []).1 (by decide)).trans rfl,
   ((htmlToDocx_text_nodes " b " []).2 (by decide)).trans rfl⟩

/-- C6: evaluating the coercion branch at the failing inputs: on `null` and
`undefined` the member call `inputString.toString()` throws a `TypeError`
instead of recovering, while other non-string values are coerced and
processed normally. -/
theorem parseStyledStringJS_null_throws :
    parseStyledStringJS JSValue.jsNull = Except.error "TypeError" ∧
    parseStyledStringJS JSValue.undef = Except.error "TypeError" ∧
    parseStyledStringJS (JSValue.num 42)
      = Except.ok (parseStyledString (toString (42 : Int))) ∧
    parseStyledStringJS (JSValue.boolean true)
      = Except.ok (parseStyledString "true") := ⟨rfl, rfl, rfl, rfl⟩

/-- C7 counterexample: with both `data-spacing-after="50"` and the
unrecognized `data-spacing="x"` on one element, the later flat fallback
overwrites the spacing group: `properties.spacing.after` no longer holds
`"50"` and `properties.spacing` is the string `"x"` (this order is
fault-free, as the third conjunct records); in the opposite order the group
assignment throws on the string primitive (fourth conjunct). -/
theorem parseProperties_conflict_cex :
    getPath (JVal.obj (parseProperties [("data-spacing-after", "50"), ("data-spacing", "x")]))
      ["spacing", "after"] = none ∧
    getPath (JVal.obj (parseProperties [("data-spacing-after", "50"), ("data-spacing", "x")]))
      ["spacing"] = some (JVal.str "x") ∧
    parsePropertiesE [("data-spacing-after", "50"), ("data-spacing", "x")]
      = some (parseProperties [("data-spacing-after", "50"), ("data-spacing", "x")]) ∧
    parsePropertiesE [("data-spacing", "x"), ("data-spacing-after", "50")] = none :=
  ⟨rfl, rfl, rfl, rfl⟩

/-- C7 (amended): every `data-*` attribute other than `data-type` is written
at its designated property path — the nested path of the fixed translation
table for known names, the flat key with the `data-` prefix removed
otherwise — and whenever processing the element's attributes completes
without the strict-mode `TypeError` (`parsePropertiesE` returns an object),
the written value is still found at that path in the result provided no
later attribute writes a conflicting (prefix-related) path; attributes
processed earlier can never drop it. -/
theorem parseProperties_mapping (pre post : List (String × String)) (n v : String)
    (props : List (String × JVal))
    (hn : isDataAttr n = true)
    (hok : parsePropertiesE (pre ++ (n, v) :: post) = some props)
    (hpost : ∀ m w, (m, w) ∈ post → isDataAttr m = true →
      ¬ pathOf m <+: pathOf n ∧ ¬ pathOf n <+: pathOf m) :
    getPath (JVal.obj props) (pathOf n) = some (valOf n v) := by
  rw [parsePropertiesE_some hok]
  rw [parseProperties, List.foldl_append, List.foldl_cons]
  rw [getPath_foldl_preserve n post _ hpost]
  exact applyAttr_places _ n v hn

/-- C7 witness: `data-spacing-after="50"` lands at `spacing.after` in the
presence of unrelated attributes (a fault-free run), and an unrecognized
`data-foo="x"` lands at the flat key `foo`. -/
theorem parseProperties_mapping_w :
    getPath (JVal.obj (parseProperties
      [("class", "x"), ("data-spacing-after", "50"), ("data-spacing-before", "10")]))
      ["spacing", "after"] = some (JVal.str "50") ∧
    getPath (JVal.obj (parseProperties [("data-foo", "x")])) ["foo"]
      = some (JVal.str "x") := by
  constructor
  · have hpost : ∀ m w, (m, w) ∈ [("data-spacing-before", "10")] → isDataAttr m = true →
        ¬ pathOf m <+: pathOf "data-spacing-after" ∧
        ¬ pathOf "data-spacing-after" <+: pathOf m := by
      intro m w hm _
      simp only [List.mem_singleton, Prod.mk.injEq] at hm
      obtain ⟨rfl, rfl⟩ := hm
      exact ⟨by decide, by decide⟩
    exact parseProperties_mapping [("class", "x")] [("data-spacing-before", "10")]
      "data-spacing-after" "50" _ (by decide) rfl hpost
  · have hpost : ∀ m w, (m, w) ∈ ([] : List (String × String)) → isDataAttr m = true →
        ¬ pathOf m <+: pathOf "data-foo" ∧ ¬ pathOf "data-foo" <+: pathOf m := by
      intro m w hm
      exact absurd hm (List.not_mem_nil _)
    exact parseProperties_mapping [] [] "data-foo" "x" _ (by decide) rfl hpost

/-- C8: on a markup-free string — no `<tag>...</tag>` pair matched by the
parser's regular expression and no `<u-org>` sentinel pair — the parser
returns exactly one run whose content is the whole input with no style flag
set, and re-running the parser on that run's content returns the same single
run (idempotence). -/
theorem parseStyledString_markupFree (s : String)
    (hm : findMatch s.data = none) (hu : hasUOrg s.data = false) :
    parseStyledString s = [(⟨s.data, false, false, false⟩ : TextPart)] ∧
    parseStyledString ⟨(⟨s.data, false, false, false⟩ : TextPart).content⟩
      = [(⟨s.data, false, false, false⟩ : TextPart)] := by
  have h1 : parseStyledString s = [(⟨s.data, false, false, false⟩ : TextPart)] := by
    unfold parseStyledString
    rw [hu]
    exact processSegments_of_findMatch_none noStyles hm
  exact ⟨h1, h1⟩

/-- C8 witness: a concrete markup-free string parses to itself as one
unstyled run. -/
theorem parseStyledString_markupFree_w :
    findMatch "hello world".data = none ∧ hasUOrg "hello world".data = false ∧
    parseStyledString "hello world"
      = [(⟨"hello world".data, false, false, false⟩ : TextPart)] :=
  ⟨by decide, by decide,
   (parseStyledString_markupFree "hello world" (by decide) (by decide)).1⟩

/-- C9 counterexample: a paragraph inside a list entry contains the `<br>`
marker but is only filtered, never split — the normalizer splits only the
block-level and per-item paragraph sequences. -/
theorem parseBlockContent_list_pars_not_split_cex :
    (parseBlockContent
      ⟨some ⟨none, some ⟨none, none, none, some [[⟨["x<br>y"]⟩]]⟩, none⟩, []⟩).1.lists
      = [[⟨["x<br>y"]⟩]] ∧
    jsIncludes "x<br>y" "<br>" = true := ⟨rfl, by decide⟩

/-- C9 (amended): every paragraph sequence is first filtered to drop empty
entries; the block-level and per-item sequences are then split on the literal
`<br>` marker, while per-list-entry sequences are only filtered.  On a block
whose paragraph list is `["a<br>b", ""]` the normalized sequence is
`["a", "b"]`. -/
theorem parseBlockContent_filter_split :
    (∀ b : Block, (parseBlockContent b).1.paragraphs
      = splitByBrTag (((blockPars b).getD []).filter (fun p => p ≠ ""))) ∧
    (∀ b : Block, (parseBlockContent b).1.lists
      = ((blockLists b).getD []).map (List.map filterListEntry)) ∧
    (∀ b : Block, (parseBlockContent b).1.items
      = (((b.items.map moveBanner).map
            (fun it => ⟨it.banner, it.images, filterPars it.paragraphs, it.lists⟩)).map
          filterItemLists).map
          (fun it => ⟨it.banner, it.images, splitByBrTag it.paragraphs, it.lists⟩)) ∧
    (parseBlockContent
      ⟨some ⟨none, some ⟨some ["a<br>b", ""], none, none, none⟩, none⟩, []⟩).1.paragraphs
      = ["a", "b"] :=
  ⟨fun _ => rfl, fun _ => rfl, fun _ => rfl, rfl⟩

/-- C10: because the empty-entry filter runs before the `<br>` split, a
paragraph ending in the marker leaves an empty string in the normalized
sequence: `["a<br>"]` normalizes to `["a", ""]`. -/
theorem parseBlockContent_empty_after_split :
    (parseBlockContent
      ⟨some ⟨none, some ⟨some ["a<br>"], none, none, none⟩, none⟩, []⟩).1.paragraphs
      = ["a", ""] ∧
    "" ∈ (parseBlockContent
      ⟨some ⟨none, some ⟨some ["a<br>"], none, none, none⟩, none⟩, []⟩).1.paragraphs :=
  ⟨rfl, by decide⟩

end ReportSdk
